import Mathlib

set_option maxRecDepth 16000

/-!
# Shallow embedding of the scrap-tool extraction heuristics

This file embeds the extraction heuristics of `src/scraper.js` (class
`WebScraper`) as executable Lean definitions and proves properties about
them.

A document handed to the extractors is modelled abstractly: the cheerio
CSS-selector queries that the scraper performs are represented by the
`Doc` structure, whose fields hold the query results (element texts,
attribute values, parsed JSON-LD payloads, sibling chains) that the
scraper code consumes.  The control flow of every extractor is translated
statement by statement from the JavaScript source; JavaScript exceptions
are modelled with `Except`, JavaScript `undefined` with `Option`, and the
WHATWG `URL` constructor with an explicit parser over character lists.
-/

/-- JSON values, as produced by a successful `JSON.parse`. -/
inductive Json where
  | null
  | bool (b : Bool)
  | num (n : Int)
  | str (s : String)
  | arr (xs : List Json)
  | obj (kvs : List (String × Json))

/-- JavaScript truthiness of a JSON value. -/
def jsTruthy : Json → Bool
  | .null => false
  | .bool b => b
  | .num n => n != 0
  | .str s => s != ""
  | .arr _ => true
  | .obj _ => true

/-- Truthiness of a possibly-`undefined` value (`undefined` is falsy). -/
def jsTruthyO : Option Json → Bool
  | none => false
  | some v => jsTruthy v

/-- JavaScript property access `v[k]`: throws a `TypeError` on `null`,
yields `undefined` (here `none`) for missing keys and non-object values. -/
def jsIndexE (v : Json) (k : String) : Except String (Option Json) :=
  match v with
  | .null => .error ("TypeError: cannot read properties of null")
  | .obj kvs => .ok (kvs.lookup k)
  | _ => .ok none

/-- Strict equality `v === lit` between a possibly-`undefined` value and a
string literal. -/
def jsEqStr (v : Option Json) (lit : String) : Bool :=
  match v with
  | some (.str s) => s == lit
  | _ => false

/-- Characters removed by JavaScript `trim` (model: the ASCII whitespace
recognized by `Char.isWhitespace`). -/
def trimChars (l : List Char) : List Char :=
  ((l.dropWhile Char.isWhitespace).reverse.dropWhile Char.isWhitespace).reverse

/-- `s.trim()`. -/
def jsTrim (s : String) : String :=
  String.mk (trimChars s.data)

/-- `s.toLowerCase()` (model: Unicode lowercasing per `Char.toLower`). -/
def jsToLower (s : String) : String :=
  String.mk (s.data.map Char.toLower)

/-- A question/answer pair pushed by the FAQ cascade.  Method 2 copies raw
JSON values into the pair, so the fields are `Json`, not `String`. -/
structure FaqPair where
  question : Json
  answer : Json

/-- One `[itemprop="mainEntity"]` item inside a `FAQPage` microdata
container (method 1): the text of its name and accepted-answer nodes. -/
structure MicroItem where
  nameText : String
  answerText : String

/-- A sibling node as seen by the manual `.next()` walk of method 3. -/
inductive SibNode where
  | textNode (s : String)
  | elemNode (tag : String) (text : String)

/-- A `.faq-content h3` heading together with its following sibling chain
(method 3). -/
structure H3Block where
  text : String
  siblings : List SibNode

/-- An element as returned by cheerio `.next()` / `.first()`. -/
structure ElemNode where
  tag : String
  text : String

/-- An `h3` element and its next sibling element, if any (method 4). -/
structure H3Next where
  text : String
  next : Option ElemNode

/-- A `.faq-content .faq-item` container (method 5): the texts of its
first question-like and first answer-like descendants. -/
structure FaqItemEl where
  questionText : String
  answerText : String

/-- A link element matched by a breadcrumb selector: its display text and
its `href` attribute (`none` when the attribute is absent). -/
structure BElem where
  text : String
  href : Option String
deriving DecidableEq

/-- The parsed document, abstracted to the results of the CSS-selector
queries that `WebScraper` performs on it. -/
structure Doc where
  /-- text of `$('title')` -/
  titleText : String := ""
  /-- `content` attribute of the `og:title` meta, if present -/
  ogTitleAttr : Option String := none
  /-- text of the first `h1` ("" when there is none) -/
  h1FirstText : String := ""
  /-- paragraph texts per content selector of `extractArticleBody` -/
  contentSels : List (List String) := []
  /-- per container selector: text of the first match after removal of
  boilerplate descendants (`none` when the selector matches nothing) -/
  containerSels : List (Option String) := []
  /-- matched link elements per breadcrumb selector, in selector order -/
  breadcrumbSels : List (List BElem) := []
  /-- `mainEntity` items per `FAQPage` microdata container (method 1) -/
  microFaqPages : List (List MicroItem) := []
  /-- parse result of each `application/ld+json` script tag, in document
  order; `none` models content on which `JSON.parse` throws -/
  ldScripts : List (Option Json) := []
  /-- `.faq-content h3` headings with sibling chains (method 3) -/
  faqContentH3 : List H3Block := []
  /-- `h3` elements with their next sibling element (method 4) -/
  h3Elems : List H3Next := []
  /-- `.faq-content .faq-item` containers (method 5) -/
  faqItems : List FaqItemEl := []

/-! ## URL model

`new URL` is modelled by an explicit parser for absolute `http(s)` URLs
over character lists, plus a simple relative-reference resolver.  The
parser mirrors the component split of the WHATWG parser on plain URLs
(scheme, host, pathname defaulting to "/", search, hash); it does not
model percent-encoding or host normalization, which none of the scraper
logic depends on. -/

/-- A parsed URL.  `protocol` includes the trailing colon, `search` is
empty or starts with `?`, `hash` is empty or starts with `#`. -/
structure UrlObj where
  protocol : List Char
  host : List Char
  pathname : List Char
  search : List Char
  hash : List Char
deriving DecidableEq, Repr

/-- `origin` property: `protocol + "//" + host`. -/
def UrlObj.origin (o : UrlObj) : List Char :=
  o.protocol ++ [ '/', '/' ] ++ o.host

/-- `href` property: full serialization. -/
def UrlObj.href (o : UrlObj) : List Char :=
  o.origin ++ o.pathname ++ o.search ++ o.hash

/-- Characters that terminate the host component. -/
def notHostEnd (c : Char) : Bool :=
  c != '/' && c != '?' && c != '#'

/-- Characters that may appear in a pathname (before query or fragment). -/
def notQueryStart (c : Char) : Bool :=
  c != '?' && c != '#'

/-- Split scheme-less remainder of an absolute URL into components. -/
def parseAfterScheme (proto : List Char) (rest : List Char) : Option UrlObj :=
  let host := rest.takeWhile notHostEnd
  let afterHost := rest.dropWhile notHostEnd
  if host.isEmpty then none
  else
    let path := afterHost.takeWhile notQueryStart
    let rest2 := afterHost.dropWhile notQueryStart
    some { protocol := proto
           host := host
           pathname := if path.isEmpty then ['/'] else path
           search := rest2.takeWhile (· != '#')
           hash := rest2.dropWhile (· != '#') }

/-- Parse an absolute `http(s)` URL. -/
def parseAbsList (l : List Char) : Option UrlObj :=
  if "https://".data.isPrefixOf l then parseAfterScheme ("https:".data) (l.drop 8)
  else if "http://".data.isPrefixOf l then parseAfterScheme ("http:".data) (l.drop 7)
  else none

/-- String-level absolute URL parser. -/
def parseAbsUrl (s : String) : Option UrlObj :=
  parseAbsList s.data

/-- Drop the last path segment (everything after the final `/`). -/
def dirOfPath (p : List Char) : List Char :=
  (p.reverse.dropWhile (· != '/')).reverse

/-- `new URL(u, base)`: absolute parse of `u`, else resolution of `u` as a
relative reference against `base`; `none` models the thrown `TypeError`. -/
def newUrlList (u : List Char) (base : List Char) : Option UrlObj :=
  match parseAbsList u with
  | some o => some o
  | none =>
    match parseAbsList base with
    | none => none
    | some b =>
      if "//".data.isPrefixOf u then parseAbsList (b.protocol ++ u)
      else
        let path := u.takeWhile notQueryStart
        let rest2 := u.dropWhile notQueryStart
        let search := rest2.takeWhile (· != '#')
        let hsh := rest2.dropWhile (· != '#')
        if u.isEmpty then some b
        else if "/".data.isPrefixOf u then
          some { b with pathname := if path.isEmpty then ['/'] else path
                        search := search, hash := hsh }
        else
          some { b with pathname := dirOfPath b.pathname ++ path
                        search := search, hash := hsh }

/-- Except-valued `new URL(u, base)`: `.error` models the thrown
`TypeError: Invalid URL`. -/
def newUrlE (u base : String) : Except String UrlObj :=
  match newUrlList u.data base.data with
  | some o => .ok o
  | none => .error ("TypeError: Invalid URL")

/-- The body of `makeAbsoluteUrl` before its `catch`:
`return new URL(url, baseUrl).href`, wrapped so that the catch clause
turns any thrown error into the unchanged input. -/
def makeAbsoluteUrlE (u base : String) : Except String String :=
  match newUrlE u base with
  | .ok o => .ok (String.mk o.href)
  | .error _ => .ok u

/-- `makeAbsoluteUrl(url, baseUrl)` of `scraper.js`. -/
def makeAbsoluteUrl (u base : String) : String :=
  match makeAbsoluteUrlE u base with
  | .ok s => s
  | .error _ => u

/-- `ensureTrailingSlash` (inner helper of `extractBreadcrumbs`), on
character lists.  `pageUrl` is the page URL the helper closes over; the
`.error` case models the `TypeError` thrown by `new URL` inside it. -/
def ensureTrailingSlashList (pageUrl : List Char) (u : List Char) :
    Except String (List Char) :=
  if u.getLast? = some '/' then .ok u
  else
    match newUrlList u pageUrl with
    | none => .error ("TypeError: Invalid URL")
    | some o =>
      let base := o.origin ++ o.pathname
      let base := if base.getLast? = some '/' then base else base ++ ['/']
      .ok (base ++ o.search ++ o.hash)

/-- String-level `ensureTrailingSlash`. -/
def ensureTrailingSlash (pageUrl u : String) : Except String String :=
  (ensureTrailingSlashList pageUrl.data u.data).map String.mk

/-! ## Title extraction -/

/-- `extractTitle`:
`$('title').text().trim() || $('meta[property="og:title"]').attr('content')
 || $('h1').first().text().trim() || null`. -/
def extractTitle (d : Doc) : Option String :=
  let t := jsTrim d.titleText
  if t ≠ "" then some t
  else
    let h1branch :=
      let h := jsTrim d.h1FirstText
      if h ≠ "" then some h else none
    match d.ogTitleAttr with
    | some c => if c ≠ "" then some c else h1branch
    | none => h1branch

/-! ## Article body extraction -/

/-- `text.replace(/\s+/g, ' ')` on characters: each maximal run of
whitespace becomes a single space.  The flag records whether the previous
character was whitespace (so later characters of a run are dropped). -/
def collapseAux : Bool → List Char → List Char
  | _, [] => []
  | prevWs, c :: cs =>
    if c.isWhitespace then
      if prevWs then collapseAux true cs else ' ' :: collapseAux true cs
    else c :: collapseAux false cs

/-- `s.replace(/\s+/g, ' ')`. -/
def collapseWs (s : String) : String :=
  String.mk (collapseAux false s.data)

/-- Phase 1 of `extractArticleBody`: per paragraph selector, if it yields
more than 5 paragraphs, concatenate the trimmed texts longer than 20
characters; keep the longest concatenation. -/
def bodyPhase1 (d : Doc) : String :=
  d.contentSels.foldl
    (fun fullText ps =>
      if ps.length > 5 then
        let combined := ps.foldl
          (fun ct p =>
            let t := jsTrim p
            if t.length > 20 then ct ++ t ++ " " else ct) ""
        if combined.length > fullText.length then combined else fullText
      else fullText) ""

/-- Phase 2 of `extractArticleBody`: if the phase-1 text is shorter than
500 characters, try whole-container selectors; keep a collapsed container
text when it is longer than the current text and longer than 200. -/
def bodyPhase2 (d : Doc) (fullText : String) : String :=
  if fullText.length < 500 then
    d.containerSels.foldl
      (fun ft cont =>
        match cont with
        | none => ft
        | some raw =>
          let content := jsTrim raw
          let cleanContent := jsTrim (collapseWs content)
          if cleanContent.length > ft.length ∧ cleanContent.length > 200 then
            cleanContent
          else ft) fullText
  else fullText

/-- The `fullText` value at the end of both phases of
`extractArticleBody`. -/
def chooseFullText (d : Doc) : String :=
  bodyPhase2 d (bodyPhase1 d)

/-- `extractArticleBody`: returns the collapsed, trimmed text when the
accumulated `fullText` is longer than 200 characters, else `undefined`. -/
def extractArticleBody (d : Doc) : Option String :=
  let fullText := chooseFullText d
  if fullText.length > 200 then some (jsTrim (collapseWs fullText))
  else none

/-! ## Breadcrumb extraction -/

/-- A breadcrumb entry `{name, url, position}`. -/
structure Crumb where
  name : String
  url : String
  position : Nat
deriving DecidableEq, Repr

/-- Truthiness of the `href` attribute value. -/
def hrefTruthy : Option String → Bool
  | none => false
  | some h => h != ""

/-- The `each` loop of the selector branch of `extractBreadcrumbs`: `i` is
the element index within the selection; an entry is recorded only when
both the trimmed text and the `href` are truthy, with `position = i + 1`. -/
def crumbsOfElems (pageUrl : String) : List BElem → Nat → Except String (List Crumb)
  | [], _ => .ok []
  | e :: rest, i =>
    let t := jsTrim e.text
    if t ≠ "" ∧ hrefTruthy e.href then
      match e.href with
      | some h => do
        let abs := makeAbsoluteUrl h pageUrl
        let abs2 ← ensureTrailingSlash pageUrl abs
        let tail ← crumbsOfElems pageUrl rest (i + 1)
        .ok ({ name := t, url := abs2, position := i + 1 } :: tail)
      | none => crumbsOfElems pageUrl rest (i + 1)
    else crumbsOfElems pageUrl rest (i + 1)

/-- First selector whose query yields at least one element. -/
def firstNonEmpty : List (List BElem) → Option (List BElem)
  | [] => none
  | ls :: rest => if ls.isEmpty then firstNonEmpty rest else some ls

/-- Split a character list on a separator, keeping empty pieces, as
JavaScript `String.prototype.split`. -/
def splitOnChar (sep : Char) (l : List Char) : List (List Char) :=
  let step := l.foldr
    (fun c (p : List Char × List (List Char)) =>
      if c = sep then ([], p.1 :: p.2) else (c :: p.1, p.2))
    ([], [])
  step.1 :: step.2

/-- JavaScript word characters (`\w`). -/
def isWordChar (c : Char) : Bool :=
  c.isAlpha || c.isDigit || c = '_'

/-- `replace(/\b\w/g, l => l.toUpperCase())`: uppercase every word
character that starts a word.  The flag records whether the previous
character was a word character. -/
def titleCaseAux : Bool → List Char → List Char
  | _, [] => []
  | prevW, c :: rest =>
    let c' := if isWordChar c && !prevW then c.toUpper else c
    c' :: titleCaseAux (isWordChar c) rest

/-- Title-case the first letter of every word. -/
def titleCase (l : List Char) : List Char :=
  titleCaseAux false l

/-- The fallback loop of `extractBreadcrumbs`: one entry per path segment
at `position = index + 2`, with cumulative path and hyphens replaced by
spaces before title-casing. -/
def fallbackCrumbs (pageUrl : String) (o : UrlObj) :
    List Char → List (List Char) → Nat → Except String (List Crumb)
  | _, [], _ => .ok []
  | currentPath, seg :: rest, i =>
    let currentPath' := currentPath ++ '/' :: seg
    let name := titleCase (seg.map (fun c => if c = '-' then ' ' else c))
    do
      let u ← ensureTrailingSlash pageUrl
        (String.mk (o.protocol ++ [ '/', '/' ] ++ o.host ++ currentPath'))
      let tail ← fallbackCrumbs pageUrl o currentPath' rest (i + 1)
      .ok ({ name := String.mk name, url := u, position := i + 2 } :: tail)

/-- `extractBreadcrumbs($, url)`: selector cascade committing on the first
selector with at least one match, else synthesis from the URL path.  The
`.error` case models exceptions thrown by `new URL` (on an unparseable
page URL in the fallback, or inside `ensureTrailingSlash`). -/
def extractBreadcrumbs (d : Doc) (pageUrl : String) : Except String (List Crumb) :=
  match firstNonEmpty d.breadcrumbSels with
  | some ls => crumbsOfElems pageUrl ls 0
  | none =>
    match parseAbsUrl pageUrl with
    | none => .error ("TypeError: Invalid URL")
    | some o =>
      let segments := (splitOnChar '/' o.pathname).filter (·.length > 0)
      do
        let homeUrl ← ensureTrailingSlash pageUrl
          (String.mk (o.protocol ++ [ '/', '/' ] ++ o.host))
        let rest ← fallbackCrumbs pageUrl o [] segments 0
        .ok ({ name := "Home", url := homeUrl, position := 1 } :: rest)

/-! ## FAQ extraction -/

/-- Method 1: schema.org `FAQPage` microdata.  For each `mainEntity` item,
push the trimmed name/answer texts when both are nonempty. -/
def faqMethod1 (d : Doc) : List FaqPair :=
  d.microFaqPages.foldl
    (fun acc items =>
      acc ++ items.filterMap (fun it =>
        let question := jsTrim it.nameText
        let answer := jsTrim it.answerText
        if question ≠ "" ∧ answer ≠ "" then
          some { question := .str question, answer := .str answer }
        else none)) []

/-- The `mainEntity.forEach` body of method 2.  An exception thrown on a
later item aborts the loop but keeps the pairs already pushed. -/
def processItems : List Json → List FaqPair
  | [] => []
  | it :: rest =>
    match jsIndexE it ("@type") with
    | .error _ => []
    | .ok ty =>
      if jsEqStr ty ("Question") then
        match jsIndexE it ("name") with
        | .error _ => []
        | .ok nm =>
          if jsTruthyO nm then
            match jsIndexE it ("acceptedAnswer") with
            | .error _ => []
            | .ok aa =>
              if jsTruthyO aa then
                match aa with
                | some aaV =>
                  (match jsIndexE aaV ("text"), jsIndexE aaV ("name") with
                   | .ok txt, .ok aan =>
                     let answer : Json :=
                       if jsTruthyO txt then txt.getD .null
                       else if jsTruthyO aan then aan.getD .null
                       else .str ("")
                     let question : Json := nm.getD .null
                     if jsTruthy question && jsTruthy answer then
                       { question := question, answer := answer } :: processItems rest
                     else processItems rest
                   | _, _ => [])
                | none => []
              else processItems rest
          else processItems rest
      else processItems rest

/-- Method 2, one script tag: the pairs pushed by its `try` block.  A
thrown exception (parse failure, property access on `null`, `forEach` on
a non-array) is caught by the per-tag `catch`; pairs pushed before the
throw remain. -/
def processLdTag : Option Json → List FaqPair
  | none => []
  | some data =>
    match jsIndexE data ("@type") with
    | .error _ => []
    | .ok ty =>
      match jsIndexE data ("mainEntity") with
      | .error _ => []
      | .ok me =>
        if jsEqStr ty ("FAQPage") && jsTruthyO me then
          match me with
          | some (.arr items) => processItems items
          | _ => []
        else []

/-- Method 2: scan all JSON-LD script tags, accumulating pairs. -/
def faqMethod2 (d : Doc) : List FaqPair :=
  d.ldScripts.foldl (fun acc t => acc ++ processLdTag t) []

/-- The sibling walk of method 3: skip blank text nodes, then take the
trimmed text of the next node when it is a `div`, else the empty answer. -/
def m3Answer : List SibNode → String
  | [] => ""
  | .textNode s :: rest => if jsTrim s = "" then m3Answer rest else ""
  | .elemNode tag s :: _ => if tag = "div" then jsTrim s else ""

/-- Method 3: `.faq-content h3` headings with a following `div` answer. -/
def faqMethod3 (d : Doc) : List FaqPair :=
  d.faqContentH3.filterMap (fun b =>
    let question := jsTrim b.text
    let answer := m3Answer b.siblings
    if question ≠ "" ∧ answer ≠ "" then
      some { question := .str question, answer := .str answer }
    else none)

/-- Method 4: any `h3` followed by a `p` or `div` element. -/
def faqMethod4 (d : Doc) : List FaqPair :=
  d.h3Elems.filterMap (fun h =>
    match h.next with
    | some e =>
      if e.tag = "p" ∨ e.tag = "div" then
        let question := jsTrim h.text
        let answer := jsTrim e.text
        if question ≠ "" ∧ answer ≠ "" then
          some { question := .str question, answer := .str answer }
        else none
      else none
    | none => none)

/-- Method 5: `.faq-content .faq-item` containers. -/
def faqMethod5 (d : Doc) : List FaqPair :=
  d.faqItems.filterMap (fun it =>
    let question := jsTrim it.questionText
    let answer := jsTrim it.answerText
    if question ≠ "" ∧ answer ≠ "" then
      some { question := .str question, answer := .str answer }
    else none)

/-- The five-method accumulation of `extractFaqs`: methods 1 and 2 always
run; each of methods 3, 4, 5 runs only while the accumulator is empty. -/
def cascadeFaqs (d : Doc) : List FaqPair :=
  let faqs := faqMethod1 d
  let faqs := faqs ++ faqMethod2 d
  let faqs := if faqs.length == 0 then faqs ++ faqMethod3 d else faqs
  let faqs := if faqs.length == 0 then faqs ++ faqMethod4 d else faqs
  let faqs := if faqs.length == 0 then faqs ++ faqMethod5 d else faqs
  faqs

/-- `faq.question.toLowerCase()`: throws a `TypeError` when the question
is not a string. -/
def qLowerE (f : FaqPair) : Except String String :=
  match f.question with
  | .str s => .ok (jsToLower s)
  | _ => .error ("TypeError: toLowerCase is not a function")

/-- `self.findIndex(f => f.question.toLowerCase() === faq.question.toLowerCase())`. -/
def findIdxM (k : FaqPair) : List FaqPair → Except String (Option Nat)
  | [] => .ok none
  | f :: rest => do
    let kf ← qLowerE f
    let kk ← qLowerE k
    if kf = kk then pure (some 0)
    else do
      let r ← findIdxM k rest
      pure (r.map (· + 1))

/-- The dedup `filter` of `extractFaqs`, over the enumerated list: an
entry is kept when its index equals the first index with its key. -/
def uniqueAux (self : List FaqPair) : List (Nat × FaqPair) → Except String (List FaqPair)
  | [] => .ok []
  | (i, f) :: rest => do
    let j ← findIdxM f self
    let tail ← uniqueAux self rest
    pure (if j = some i then f :: tail else tail)

/-- `faqs.filter((faq, index, self) => index === self.findIndex(...))`. -/
def uniqueFaqs (l : List FaqPair) : Except String (List FaqPair) :=
  uniqueAux l l.enum

/-- The `try` block of `extractFaqs`: cascade, dedup, cap at 20. -/
def extractFaqsBody (d : Doc) : Except String (List FaqPair) :=
  do
    let faqs := cascadeFaqs d
    let uniq ← uniqueFaqs faqs
    pure (uniq.take 20)

/-- `extractFaqs($)`: the `catch` clause converts any thrown error into an
empty list. -/
def extractFaqs (d : Doc) : List FaqPair :=
  match extractFaqsBody d with
  | .ok l => l
  | .error _ => []

/-- Case-insensitive question key used by the deduplication: `none` when
the question is not a string (so `toLowerCase` would throw). -/
def qKey (f : FaqPair) : Option String :=
  match f.question with
  | .str s => some (jsToLower s)
  | _ => none

/-! ## Derived predicates and concrete example inputs -/

/-- An element of a breadcrumb selection that produces an entry: truthy
trimmed text and truthy `href`. -/
def keptElem (e : BElem) : Prop :=
  jsTrim e.text ≠ "" ∧ hrefTruthy e.href = true

instance : DecidablePred keptElem := fun e => by
  unfold keptElem; infer_instance

/-- The positions of a breadcrumb list form the contiguous 1-based
sequence 1, 2, ..., length. -/
def positionsContiguous (l : List Crumb) : Prop :=
  l.map Crumb.position = List.range' 1 l.length

instance : DecidablePred positionsContiguous := fun l => by
  unfold positionsContiguous; infer_instance

/-- A document on which no selector matches anything. -/
def bareDoc : Doc := {}

/-- Selector branch input whose first matched link has empty text: the
recorded entry keeps the element index, position 2. -/
def gapDoc : Doc :=
  { breadcrumbSels := [[{ text := "", href := some ("https://e.com/a") },
                        { text := "B", href := some ("https://e.com/b") }]] }

/-- A paragraph of 40 characters whose interior is 38 newlines. -/
def wsPara : String := "a" ++ String.mk (List.replicate 38 '\n') ++ "b"

/-- Six such paragraphs under one content selector: the accumulated text
is 246 characters long before collapsing, 23 after. -/
def wsDoc : Doc := { contentSels := [List.replicate 6 wsPara] }

/-- The collapsed text `extractArticleBody` returns on `wsDoc`. -/
def wsBody : String := "a b a b a b a b a b a b"

/-- One microdata FAQ pair (used to exercise the cascade gate). -/
def microDoc : Doc := { microFaqPages := [[{ nameText := "Q", answerText := "A" }]] }

/-- One microdata FAQ pair (used to exercise the dedup stage). -/
def microDoc2 : Doc := { microFaqPages := [[{ nameText := "Q2", answerText := "A2" }]] }

/-- A JSON-LD FAQPage whose question name is the number 5: method 2
pushes it, and `toLowerCase` then throws during deduplication. -/
def numQuestionDoc : Doc :=
  { ldScripts := [some (.obj [("@type", .str ("FAQPage")),
      ("mainEntity", .arr [.obj [("@type", .str ("Question")), ("name", .num 5),
        ("acceptedAnswer", .obj [("text", .str ("A"))])]])])] }

/-- Document with only an untrimmed Open Graph title. -/
def ogSpacedDoc : Doc := { ogTitleAttr := some (" X ") }

/-- Document with only the Open Graph title "X" (spec scenario). -/
def ogPlainDoc : Doc := { ogTitleAttr := some ("X") }

/-- Selector branch input whose only matched link has blank text: the
selector commits, yet zero entries are recorded. -/
def blankLinkDoc : Doc := { breadcrumbSels := [[{ text := " ", href := some ("y") }]] }

/-- Append a trailing slash to a pathname unless it already ends in one
(the `base` adjustment inside `ensureTrailingSlash`). -/
def pathSlash (p : List Char) : List Char :=
  if p.getLast? = some '/' then p else p ++ ['/']

/-- Well-formedness of the components produced by `parseAbsList`: an
http(s) protocol, a nonempty host free of delimiters, a nonempty
pathname starting with `/` and free of `?`/`#`, a search free of `#`
and empty or starting with `?`, and a hash empty or starting with `#`. -/
def UrlWf (o : UrlObj) : Prop :=
  (o.protocol = ("https:").data ∨ o.protocol = ("http:").data) ∧
  o.host ≠ [] ∧
  (∀ c ∈ o.host, notHostEnd c = true) ∧
  o.pathname ≠ [] ∧
  o.pathname.head? = some '/' ∧
  (∀ c ∈ o.pathname, notQueryStart c = true) ∧
  (∀ c ∈ o.search, (c != '#') = true) ∧
  (o.search = [] ∨ o.search.head? = some '?') ∧
  (o.hash = [] ∨ o.hash.head? = some '#')

/-! ## C7: URL-path breadcrumb synthesis scenario -/

/-- C7: on a document where no breadcrumb selector matches anything and
the URL `https://ex.com/a/b-c`, `extractBreadcrumbs` returns exactly the
Home entry at the origin followed by one entry per path segment, hyphens
replaced by spaces and words title-cased, with cumulative trailing-slash
URLs and positions 1, 2, 3. -/
theorem breadcrumb_fallback_scenario :
    extractBreadcrumbs bareDoc ("https://ex.com/a/b-c") =
      .ok [{ name := "Home", url := "https://ex.com/", position := 1 },
           { name := "A", url := "https://ex.com/a/", position := 2 },
           { name := "B C", url := "https://ex.com/a/b-c/", position := 3 }] := by
  rfl

/-! ## C9: makeAbsoluteUrl totality -/

/-- C9: for every base `A` and string `R`, `makeAbsoluteUrl` never
throws (its body wrapped in the catch always produces a value), and when
`R` cannot be resolved against `A` the result is `R` unchanged. -/
theorem makeAbsoluteUrl_total (A R : String) :
    (∃ s, makeAbsoluteUrlE R A = .ok s) ∧
    ((newUrlE R A).isOk = false → makeAbsoluteUrl R A = R) := by
  unfold makeAbsoluteUrl makeAbsoluteUrlE
  cases h : newUrlE R A with
  | ok o =>
    refine ⟨⟨String.mk o.href, rfl⟩, fun hh => ?_⟩
    simp [Except.isOk, Except.toBool] at hh
  | error e => exact ⟨⟨R, rfl⟩, fun _ => rfl⟩

/-- Witness for `makeAbsoluteUrl_total` at a concrete unresolvable
reference/base pair. -/
theorem makeAbsoluteUrl_total_witness :
    (newUrlE ("x y") ("nota")).isOk = false ∧
      makeAbsoluteUrl ("x y") ("nota") = "x y" :=
  ⟨rfl, (makeAbsoluteUrl_total ("nota") ("x y")).2 rfl⟩

/-! ## C6: title cascade -/

/-- C6 counterexample: with no title tag and an Open Graph title of
" X ", `extractTitle` returns " X " untrimmed, refuting the claim that
every returned title is whitespace-trimmed. -/
theorem extractTitle_untrimmed_cex :
    extractTitle ogSpacedDoc = some (" X ") ∧ jsTrim (" X ") ≠ " X " :=
  ⟨rfl, by decide⟩

/-- C6 amended: the title cascade tries the title tag, then the Open
Graph meta, then the first heading, returning the first truthy result;
the title-tag and heading results are trimmed, while the Open Graph meta
content is returned as-is; in particular a document with only
`og:title` content "X" yields "X". -/
theorem extractTitle_cascade (d : Doc) :
    (jsTrim d.titleText ≠ "" → extractTitle d = some (jsTrim d.titleText)) ∧
    (jsTrim d.titleText = "" → ∀ c, d.ogTitleAttr = some c → c ≠ "" →
      extractTitle d = some c) ∧
    (jsTrim d.titleText = "" → (d.ogTitleAttr = none ∨ d.ogTitleAttr = some ("")) →
      jsTrim d.h1FirstText ≠ "" → extractTitle d = some (jsTrim d.h1FirstText)) ∧
    (d.titleText = "" → d.ogTitleAttr = some ("X") → extractTitle d = some ("X")) := by
  have p1 : jsTrim d.titleText ≠ "" → extractTitle d = some (jsTrim d.titleText) := by
    intro h; simp [extractTitle, h]
  have p2 : jsTrim d.titleText = "" → ∀ c, d.ogTitleAttr = some c → c ≠ "" →
      extractTitle d = some c := by
    intro h c hc hcne; simp [extractTitle, h, hc, hcne]
  have p3 : jsTrim d.titleText = "" → (d.ogTitleAttr = none ∨ d.ogTitleAttr = some ("")) →
      jsTrim d.h1FirstText ≠ "" → extractTitle d = some (jsTrim d.h1FirstText) := by
    intro h hog hne
    rcases hog with h2 | h2 <;> simp [extractTitle, h, h2, hne]
  exact ⟨p1, p2, p3, fun h hog => p2 (by rw [h]; rfl) ("X") hog (by decide)⟩

/-- Witness for `extractTitle_cascade`: the spec scenario, a document
with Open Graph title "X" and no title tag. -/
theorem extractTitle_cascade_witness : extractTitle ogPlainDoc = some ("X") :=
  (extractTitle_cascade ogPlainDoc).2.2.2 rfl rfl

/-! ## C2: FAQ cascade gating -/

/-- C2: methods 1 and 2 always run and accumulate together; each of
methods 3, 4, 5 contributes only when the accumulated pair count of all
earlier methods is zero; in particular when method 1 or 2 yields a pair,
methods 3-5 contribute nothing. -/
theorem faq_cascade_order (d : Doc) :
    (faqMethod1 d ++ faqMethod2 d ≠ [] →
      cascadeFaqs d = faqMethod1 d ++ faqMethod2 d) ∧
    (faqMethod1 d ++ faqMethod2 d = [] → faqMethod3 d ≠ [] →
      cascadeFaqs d = faqMethod3 d) ∧
    (faqMethod1 d ++ faqMethod2 d = [] → faqMethod3 d = [] → faqMethod4 d ≠ [] →
      cascadeFaqs d = faqMethod4 d) ∧
    (faqMethod1 d ++ faqMethod2 d = [] → faqMethod3 d = [] → faqMethod4 d = [] →
      cascadeFaqs d = faqMethod5 d) := by
  refine ⟨?_, ?_, ?_, ?_⟩
  · intro h
    simp only [cascadeFaqs]
    cases hA : faqMethod1 d ++ faqMethod2 d with
    | nil => exact absurd hA h
    | cons a t => rfl
  · intro h1 h3
    simp only [cascadeFaqs, h1, List.nil_append]
    cases hA : faqMethod3 d with
    | nil => exact absurd hA h3
    | cons a t => rfl
  · intro h1 h3 h4
    simp only [cascadeFaqs, h1, h3, List.nil_append]
    cases hA : faqMethod4 d with
    | nil => exact absurd hA h4
    | cons a t => rfl
  · intro h1 h3 h4
    simp only [cascadeFaqs, h1, h3, h4, List.nil_append]
    rfl

/-- Witness for `faq_cascade_order`: one microdata pair makes methods
3-5 contribute nothing. -/
theorem faq_cascade_order_witness :
    cascadeFaqs microDoc = faqMethod1 microDoc ++ faqMethod2 microDoc :=
  (faq_cascade_order microDoc).1
    (by rw [show faqMethod1 microDoc ++ faqMethod2 microDoc =
          [{ question := .str ("Q"), answer := .str ("A") }] from rfl]
        exact List.cons_ne_nil _ _)

/-! ## C3: article-body length threshold -/

/-- C3 counterexample: on `wsDoc` the accumulated text is 246 characters
before whitespace collapsing, so the 200-character gate passes, yet the
returned collapsed text has only 23 characters — refuting the claim that
a returned body always exceeds 200 characters after collapsing. -/
theorem articleBody_collapsed_short_cex :
    extractArticleBody wsDoc = some wsBody ∧ wsBody.length ≤ 200 :=
  ⟨rfl, by decide⟩

/-- C3 amended: the 200-character threshold is applied to the chosen
text before whitespace collapsing: a result is returned only when that
pre-collapse text exceeds 200 characters, and the returned value is its
collapsed, trimmed form (which may itself be 200 characters or fewer). -/
theorem articleBody_threshold_precollapse (d : Doc) (s : String)
    (h : extractArticleBody d = some s) :
    200 < (chooseFullText d).length ∧ s = jsTrim (collapseWs (chooseFullText d)) := by
  simp only [extractArticleBody] at h
  split at h
  next hc => exact ⟨hc, (Option.some.inj h).symm⟩
  next hc => cases h

/-- Witness for `articleBody_threshold_precollapse` at `wsDoc`. -/
theorem articleBody_threshold_precollapse_witness :
    200 < (chooseFullText wsDoc).length ∧
      wsBody = jsTrim (collapseWs (chooseFullText wsDoc)) :=
  articleBody_threshold_precollapse wsDoc wsBody rfl

/-! ## Breadcrumb lemmas (C10 and C1) -/

/-- Reduction of an `Except` bind on a success value. -/
theorem except_bind_ok {α β : Type} (a : α) (f : α → Except String β) :
    (Except.ok a >>= f) = f a := rfl

/-- Reduction of an `Except` bind on an error value. -/
theorem except_bind_error {α β : Type} (e : String) (f : α → Except String β) :
    ((Except.error e : Except String α) >>= f) = Except.error e := rfl

/-- A successful bind factors through a successful first computation. -/
theorem bind_ok_destruct {α β : Type} {x : Except String α}
    {f : α → Except String β} {b : β}
    (h : (x >>= f) = .ok b) : ∃ a, x = .ok a ∧ f a = .ok b := by
  cases x with
  | error e => rw [except_bind_error] at h; exact Except.noConfusion h
  | ok a => exact ⟨a, rfl, by rw [except_bind_ok] at h; exact h⟩

/-- The selector-branch loop records nothing when no matched element has
both truthy text and truthy href. -/
theorem crumbsOfElems_all_skipped (u : String) :
    ∀ (ls : List BElem) (i : Nat), (∀ e ∈ ls, ¬ keptElem e) →
      crumbsOfElems u ls i = .ok [] := by
  intro ls
  induction ls with
  | nil => intro i _; rfl
  | cons e rest ih =>
    intro i h
    have he : ¬ keptElem e := h e (List.mem_cons_self e rest)
    have hrest : ∀ x ∈ rest, ¬ keptElem x :=
      fun x hx => h x (List.mem_cons_of_mem _ hx)
    unfold keptElem at he
    simp only [crumbsOfElems]
    rw [if_neg he]
    exact ih (i + 1) hrest

/-- C10: the first breadcrumb selector with at least one matched element
commits the branch: if every matched link lacks truthy text or href, the
result is the empty list (and the URL-path fallback, which always begins
with a Home entry, is not used); the fallback produces a nonempty list
whenever it returns at all. -/
theorem breadcrumb_selector_commit (d : Doc) (u : String) :
    (∀ ls, firstNonEmpty d.breadcrumbSels = some ls →
      (∀ e ∈ ls, ¬ keptElem e) → extractBreadcrumbs d u = .ok []) ∧
    (firstNonEmpty d.breadcrumbSels = none →
      ∀ l, extractBreadcrumbs d u = .ok l → l ≠ []) := by
  constructor
  · intro ls hsel hall
    simp only [extractBreadcrumbs, hsel]
    exact crumbsOfElems_all_skipped u ls 0 hall
  · intro hnone l hok
    simp only [extractBreadcrumbs, hnone] at hok
    cases hp : parseAbsUrl u with
    | none => rw [hp] at hok; exact Except.noConfusion hok
    | some o =>
      rw [hp] at hok
      obtain ⟨home, _, hok⟩ := bind_ok_destruct hok
      obtain ⟨rest, _, hok⟩ := bind_ok_destruct hok
      injection hok with hok
      rw [← hok]
      exact List.cons_ne_nil _ _

/-- Witness for `breadcrumb_selector_commit`: a selector matching one
blank-text link commits with an empty result. -/
theorem breadcrumb_selector_commit_witness :
    extractBreadcrumbs blankLinkDoc ("https://e.com/x") = .ok [] :=
  (breadcrumb_selector_commit blankLinkDoc ("https://e.com/x")).1
    [{ text := " ", href := some ("y") }] rfl (by decide)

/-- Positions recorded by the selector-branch loop are strictly
increasing and all exceed the starting index. -/
theorem crumbsOfElems_ok_chain (u : String) :
    ∀ (ls : List BElem) (i : Nat) (l : List Crumb),
      crumbsOfElems u ls i = .ok l →
      (l.map Crumb.position).Chain' (· < ·) ∧
        ∀ p ∈ l.map Crumb.position, i < p := by
  intro ls
  induction ls with
  | nil =>
    intro i l h
    simp only [crumbsOfElems] at h
    injection h with h
    subst h
    simp
  | cons e rest ih =>
    intro i l h
    simp only [crumbsOfElems] at h
    by_cases hc : jsTrim e.text ≠ "" ∧ hrefTruthy e.href = true
    · rw [if_pos hc] at h
      cases he : e.href with
      | none =>
        rw [he] at h
        obtain ⟨hch, hgt⟩ := ih (i + 1) l h
        exact ⟨hch, fun p hp => Nat.lt_of_succ_lt (hgt p hp)⟩
      | some hr =>
        rw [he] at h
        obtain ⟨abs2, _, h⟩ := bind_ok_destruct h
        obtain ⟨tail, htail, h⟩ := bind_ok_destruct h
        injection h with h
        subst h
        obtain ⟨hch, hgt⟩ := ih (i + 1) tail htail
        refine ⟨?_, ?_⟩
        · simp only [List.map_cons]
          refine List.Chain'.cons' hch ?_
          intro y hy
          exact hgt y (List.mem_of_mem_head? hy)
        · intro p hp
          simp only [List.map_cons, List.mem_cons] at hp
          rcases hp with hp | hp
          · subst hp; exact Nat.lt_succ_self i
          · exact Nat.lt_of_succ_lt (hgt p hp)
    · rw [if_neg hc] at h
      obtain ⟨hch, hgt⟩ := ih (i + 1) l h
      exact ⟨hch, fun p hp => Nat.lt_of_succ_lt (hgt p hp)⟩

/-- When every matched element is kept, the selector-branch positions
are exactly the contiguous range starting at `i + 1`. -/
theorem crumbsOfElems_ok_allkept (u : String) :
    ∀ (ls : List BElem) (i : Nat) (l : List Crumb),
      (∀ e ∈ ls, keptElem e) → crumbsOfElems u ls i = .ok l →
      l.map Crumb.position = List.range' (i + 1) ls.length := by
  intro ls
  induction ls with
  | nil =>
    intro i l _ h
    simp only [crumbsOfElems] at h
    injection h with h
    subst h
    rfl
  | cons e rest ih =>
    intro i l hall h
    have he : keptElem e := hall e (List.mem_cons_self e rest)
    unfold keptElem at he
    simp only [crumbsOfElems] at h
    rw [if_pos he] at h
    cases hhr : e.href with
    | none => rw [hhr] at he; simp [hrefTruthy] at he
    | some hr =>
      rw [hhr] at h
      obtain ⟨abs2, _, h⟩ := bind_ok_destruct h
      obtain ⟨tail, htail, h⟩ := bind_ok_destruct h
      injection h with h
      subst h
      have hrec := ih (i + 1) tail (fun x hx => hall x (List.mem_cons_of_mem _ hx)) htail
      simp only [List.map_cons, hrec, List.length_cons, List.range'_succ]

/-- The fallback loop records exactly the contiguous positions starting
at `i + 2`. -/
theorem fallbackCrumbs_ok_positions (u : String) (o : UrlObj) :
    ∀ (segs : List (List Char)) (cp : List Char) (i : Nat) (l : List Crumb),
      fallbackCrumbs u o cp segs i = .ok l →
      l.map Crumb.position = List.range' (i + 2) segs.length := by
  intro segs
  induction segs with
  | nil =>
    intro cp i l h
    simp only [fallbackCrumbs] at h
    injection h with h
    subst h
    rfl
  | cons seg rest ih =>
    intro cp i l h
    simp only [fallbackCrumbs] at h
    obtain ⟨u2, _, h⟩ := bind_ok_destruct h
    obtain ⟨tail, htail, h⟩ := bind_ok_destruct h
    injection h with h
    subst h
    have hrec := ih _ (i + 1) tail htail
    simp only [List.map_cons, hrec, List.length_cons, List.range'_succ]

/-- C1 amended: every successful breadcrumb result has strictly
increasing positions; in the URL-path fallback branch (and in the
selector branch when every matched element yields an entry) the
positions are the contiguous 1-based sequence; in general the selector
branch stores one plus the element index, so skipped elements leave
gaps. -/
theorem breadcrumb_positions (d : Doc) (u : String) (l : List Crumb)
    (h : extractBreadcrumbs d u = .ok l) :
    (l.map Crumb.position).Chain' (· < ·) ∧
    (firstNonEmpty d.breadcrumbSels = none → positionsContiguous l) ∧
    (∀ ls, firstNonEmpty d.breadcrumbSels = some ls →
      (∀ e ∈ ls, keptElem e) → positionsContiguous l) := by
  cases hf : firstNonEmpty d.breadcrumbSels with
  | some ls =>
    simp only [extractBreadcrumbs, hf] at h
    refine ⟨(crumbsOfElems_ok_chain u ls 0 l h).1, ?_, ?_⟩
    · intro hc; exact Option.noConfusion hc
    · intro ls' hsel hall
      have hls : ls' = ls := (Option.some.inj hsel).symm
      subst hls
      have hmap := crumbsOfElems_ok_allkept u ls' 0 l hall h
      have hlen : l.length = ls'.length := by
        have := congrArg List.length hmap
        simpa using this
      unfold positionsContiguous
      rw [hmap, hlen]
  | none =>
    simp only [extractBreadcrumbs, hf] at h
    cases hp : parseAbsUrl u with
    | none => rw [hp] at h; exact Except.noConfusion h
    | some o =>
      rw [hp] at h
      obtain ⟨home, _, h⟩ := bind_ok_destruct h
      obtain ⟨rest, hrest, h⟩ := bind_ok_destruct h
      injection h with h
      subst h
      have hmap := fallbackCrumbs_ok_positions u o _ [] 0 rest hrest
      have hcont : positionsContiguous
          ({ name := "Home", url := home, position := 1 } :: rest) := by
        have hlen : rest.length = (List.map Crumb.position rest).length :=
          (List.length_map _ _).symm
        rw [hmap, List.length_range'] at hlen
        unfold positionsContiguous
        simp only [List.map_cons, hmap, List.length_cons, hlen, List.range'_succ]
      refine ⟨?_, fun _ => hcont, ?_⟩
      · have hpos := hcont
        unfold positionsContiguous at hpos
        rw [hpos]
        exact (List.pairwise_lt_range' _ _).chain'
      · intro ls' hsel; exact Option.noConfusion hsel

/-- C1 counterexample: a selector branch whose first matched link has
empty text records its single entry at position 2, so positions are not
the contiguous 1-based sequence. -/
theorem breadcrumb_positions_gap_cex :
    extractBreadcrumbs gapDoc ("https://e.com/") =
      .ok [{ name := "B", url := "https://e.com/b/", position := 2 }] ∧
    ¬ positionsContiguous [{ name := "B", url := "https://e.com/b/", position := 2 }] :=
  ⟨rfl, by decide⟩

/-- Witness for `breadcrumb_positions` on the URL-path fallback input. -/
theorem breadcrumb_positions_witness :
    (([{ name := "Home", url := "https://ex.com/", position := 1 },
       { name := "A", url := "https://ex.com/a/", position := 2 },
       { name := "B C", url := "https://ex.com/a/b-c/", position := 3 }] :
        List Crumb).map Crumb.position).Chain' (· < ·) ∧
    positionsContiguous
      [{ name := "Home", url := "https://ex.com/", position := 1 },
       { name := "A", url := "https://ex.com/a/", position := 2 },
       { name := "B C", url := "https://ex.com/a/b-c/", position := 3 }] := by
  have h := breadcrumb_positions bareDoc ("https://ex.com/a/b-c")
    [{ name := "Home", url := "https://ex.com/", position := 1 },
     { name := "A", url := "https://ex.com/a/", position := 2 },
     { name := "B C", url := "https://ex.com/a/b-c/", position := 3 }] rfl
  exact ⟨h.1, h.2.1 rfl⟩

/-! ## C5: extractFaqs error containment -/

/-- A JSON-LD tag on which `JSON.parse` throws contributes nothing to the
method-2 fold, wherever it sits in the scan. -/
theorem foldl_ld_skip_none (post : List (Option Json)) :
    ∀ (pre : List (Option Json)) (acc : List FaqPair),
      (pre ++ none :: post).foldl (fun acc t => acc ++ processLdTag t) acc =
      (pre ++ post).foldl (fun acc t => acc ++ processLdTag t) acc := by
  intro pre
  induction pre with
  | nil =>
    intro acc
    simp only [List.nil_append, List.foldl_cons]
    rw [show processLdTag none = [] from rfl, List.append_nil]
  | cons a t ih =>
    intro acc
    simp only [List.cons_append, List.foldl_cons]
    exact ih _

/-- C5: the outer catch of `extractFaqs` converts any error of its body
into an empty list (so the function always returns a list), and a
JSON-LD script tag with malformed JSON is skipped without affecting the
pairs extracted from the other tags. -/
theorem extractFaqs_never_raises (d : Doc) (pre post : List (Option Json))
    (e : String) :
    (extractFaqsBody d = .error e → extractFaqs d = []) ∧
    extractFaqs { d with ldScripts := pre ++ none :: post } =
      extractFaqs { d with ldScripts := pre ++ post } := by
  constructor
  · intro h
    unfold extractFaqs
    rw [h]
  · have hm2 : faqMethod2 { d with ldScripts := pre ++ none :: post } =
        faqMethod2 { d with ldScripts := pre ++ post } := by
      unfold faqMethod2
      exact foldl_ld_skip_none post pre []
    have hc : cascadeFaqs { d with ldScripts := pre ++ none :: post } =
        cascadeFaqs { d with ldScripts := pre ++ post } := by
      unfold cascadeFaqs
      rw [hm2]
      rfl
    have hb : extractFaqsBody { d with ldScripts := pre ++ none :: post } =
        extractFaqsBody { d with ldScripts := pre ++ post } := by
      unfold extractFaqsBody
      rw [hc]
    unfold extractFaqs
    rw [hb]

/-- Witness for `extractFaqs_never_raises`: a JSON-LD question whose
name is the number 5 makes `toLowerCase` throw during deduplication, and
the catch yields the empty list. -/
theorem extractFaqs_never_raises_witness :
    extractFaqsBody numQuestionDoc =
      .error ("TypeError: toLowerCase is not a function") ∧
    extractFaqs numQuestionDoc = [] :=
  ⟨rfl, (extractFaqs_never_raises numQuestionDoc [] []
    ("TypeError: toLowerCase is not a function")).1 rfl⟩

/-! ## C8: trailing-slash canonicalization -/

/-- The head of a `dropWhile` result fails the predicate. -/
theorem dropWhile_head_false {α : Type} {p : α → Bool} :
    ∀ {l : List α} {a : α} {t : List α}, l.dropWhile p = a :: t → p a = false := by
  intro l
  induction l with
  | nil => intro a t h; exact List.noConfusion h
  | cons b bs ih =>
    intro a t h
    simp only [List.dropWhile] at h
    split at h
    · exact ih h
    · next heq =>
      injection h with h1 _
      subst h1
      simpa using heq

/-- A nonempty `takeWhile` result starts with the head of the scanned
list, and that head satisfies the predicate. -/
theorem takeWhile_eq_cons {α : Type} {p : α → Bool} :
    ∀ {l : List α} {a : α} {t : List α}, l.takeWhile p = a :: t →
      p a = true ∧ l.head? = some a := by
  intro l
  cases l with
  | nil => intro a t h; exact List.noConfusion h
  | cons b bs =>
    intro a t h
    simp only [List.takeWhile] at h
    split at h
    · next heq =>
      injection h with h1 _
      subst h1
      exact ⟨heq, rfl⟩
    · exact List.noConfusion h

/-- `takeWhile`/`dropWhile` split an append at the first failing head. -/
theorem takeWhile_dropWhile_append {α : Type} (p : α → Bool) :
    ∀ (l1 l2 : List α), (∀ c ∈ l1, p c = true) →
      (∀ c t, l2 = c :: t → p c = false) →
      (l1 ++ l2).takeWhile p = l1 ∧ (l1 ++ l2).dropWhile p = l2 := by
  intro l1
  induction l1 with
  | nil =>
    intro l2 _ h2
    cases hl : l2 with
    | nil => exact ⟨rfl, rfl⟩
    | cons c t =>
      have hc := h2 c t hl
      subst hl
      constructor
      · simp [List.takeWhile, hc]
      · simp [List.dropWhile, hc]
  | cons a l1' ih =>
    intro l2 h1 h2
    have ha : p a = true := h1 a (List.mem_cons_self _ _)
    obtain ⟨ht, hd⟩ := ih l2 (fun c hc => h1 c (List.mem_cons_of_mem _ hc)) h2
    constructor
    · simp [List.cons_append, List.takeWhile, ha, ht]
    · simp [List.cons_append, List.dropWhile, ha, hd]

/-- A character that ends the host scan but not the path scan is `/`. -/
theorem char_slash_of {c : Char} (h1 : notHostEnd c = false)
    (h2 : notQueryStart c = true) : c = '/' := by
  unfold notHostEnd at h1
  unfold notQueryStart at h2
  simp only [Bool.and_eq_true, bne_iff_ne] at h2
  rcases Bool.and_eq_false_iff.mp h1 with h | h
  · rcases Bool.and_eq_false_iff.mp h with h | h
    · exact bne_eq_false_iff_eq.mp h
    · exact absurd (bne_eq_false_iff_eq.mp h) h2.1
  · exact absurd (bne_eq_false_iff_eq.mp h) h2.2

/-- A character that ends the path scan but is not `#` is `?`. -/
theorem char_question_of {c : Char} (h1 : notQueryStart c = false)
    (h2 : (c != '#') = true) : c = '?' := by
  unfold notQueryStart at h1
  rcases Bool.and_eq_false_iff.mp h1 with h | h
  · exact bne_eq_false_iff_eq.mp h
  · exact absurd (bne_eq_false_iff_eq.mp h) (bne_iff_ne.mp h2)

/-- The components produced by `parseAfterScheme` are well-formed. -/
theorem parseAfterScheme_wf {proto rest : List Char} {o : UrlObj}
    (hp : proto = ("https:").data ∨ proto = ("http:").data)
    (h : parseAfterScheme proto rest = some o) : UrlWf o := by
  have searchShape : ∀ o2 : UrlObj,
      o2.search = ((rest.dropWhile notHostEnd).dropWhile notQueryStart).takeWhile
        (· != '#') →
      o2.search = [] ∨ o2.search.head? = some '?' := by
    intro o2 ho2
    cases hs : ((rest.dropWhile notHostEnd).dropWhile notQueryStart).takeWhile
        (· != '#') with
    | nil => exact Or.inl (ho2.trans hs)
    | cons c t =>
      obtain ⟨hq, hhd⟩ := takeWhile_eq_cons hs
      cases hdw : (rest.dropWhile notHostEnd).dropWhile notQueryStart with
      | nil => rw [hdw] at hhd; exact Option.noConfusion hhd
      | cons c2 t2 =>
        rw [hdw] at hhd
        have hc2 : c2 = c := by simpa using hhd
        subst hc2
        have hf := dropWhile_head_false hdw
        have hcq := char_question_of hf hq
        refine Or.inr ?_
        rw [ho2, hs, hcq]
        rfl
  have hashShape : ∀ o2 : UrlObj,
      o2.hash = ((rest.dropWhile notHostEnd).dropWhile notQueryStart).dropWhile
        (· != '#') →
      o2.hash = [] ∨ o2.hash.head? = some '#' := by
    intro o2 ho2
    cases hs : ((rest.dropWhile notHostEnd).dropWhile notQueryStart).dropWhile
        (· != '#') with
    | nil => exact Or.inl (ho2.trans hs)
    | cons c t =>
      have hf := dropWhile_head_false hs
      have hc : c = '#' := bne_eq_false_iff_eq.mp hf
      refine Or.inr ?_
      rw [ho2, hs, hc]
      rfl
  simp only [parseAfterScheme] at h
  split at h
  · exact Option.noConfusion h
  · next hne =>
    split at h
    · next hpath =>
      injection h with h
      subst h
      refine ⟨hp, fun hh => hne (List.isEmpty_iff.mpr hh),
        fun c hc => List.mem_takeWhile_imp hc,
        List.cons_ne_nil _ _, rfl, ?_,
        fun c hc => @List.mem_takeWhile_imp Char (fun y => y != '#') _ c hc,
        searchShape _ rfl, hashShape _ rfl⟩
      intro c hc
      simp only [List.mem_singleton] at hc
      subst hc
      rfl
    · next hpath =>
      injection h with h
      subst h
      refine ⟨hp, fun hh => hne (List.isEmpty_iff.mpr hh),
        fun c hc => List.mem_takeWhile_imp hc,
        fun hh => hpath (List.isEmpty_iff.mpr hh), ?_,
        fun c hc => List.mem_takeWhile_imp hc,
        fun c hc => @List.mem_takeWhile_imp Char (fun y => y != '#') _ c hc,
        searchShape _ rfl, hashShape _ rfl⟩
      cases hpp : (rest.dropWhile notHostEnd).takeWhile notQueryStart with
      | nil => exact absurd (List.isEmpty_iff.mpr hpp) hpath
      | cons c t =>
        obtain ⟨hq, hhd⟩ := takeWhile_eq_cons hpp
        cases hdw : rest.dropWhile notHostEnd with
        | nil => rw [hdw] at hhd; exact Option.noConfusion hhd
        | cons c2 t2 =>
          rw [hdw] at hhd
          have hc2 : c2 = c := by simpa using hhd
          subst hc2
          have hf := dropWhile_head_false hdw
          have hcs := char_slash_of hf hq
          subst hcs
          rfl

/-- Any parse result of `parseAbsList` is well-formed. -/
theorem parseAbsList_wf {l : List Char} {o : UrlObj}
    (h : parseAbsList l = some o) : UrlWf o := by
  unfold parseAbsList at h
  split at h
  · exact parseAfterScheme_wf (Or.inl rfl) h
  · split at h
    · exact parseAfterScheme_wf (Or.inr rfl) h
    · exact Option.noConfusion h

/-- Reparsing the serialized components of a well-formed URL recovers
them exactly. -/
theorem parseAfterScheme_href {o : UrlObj} (wf : UrlWf o) :
    parseAfterScheme o.protocol
      (o.host ++ (o.pathname ++ (o.search ++ o.hash))) = some o := by
  obtain ⟨hp, hhost, hhostc, hpne, hphead, hpc, hsc, hsshape, hhshape⟩ := wf
  have hheadPSH : ∀ c t, o.pathname ++ (o.search ++ o.hash) = c :: t →
      notHostEnd c = false := by
    intro c t hct
    cases hpn : o.pathname with
    | nil => exact absurd hpn hpne
    | cons x xs =>
      rw [hpn] at hphead
      have hx : x = '/' := by simpa using hphead
      rw [hpn, List.cons_append] at hct
      injection hct with h1 _
      subst h1
      rw [hx]
      rfl
  have hheadSH : ∀ c t, o.search ++ o.hash = c :: t →
      notQueryStart c = false := by
    intro c t hct
    rcases hsshape with hs | hs
    · rw [hs, List.nil_append] at hct
      rcases hhshape with hh | hh
      · rw [hh] at hct; exact List.noConfusion hct
      · rw [hct] at hh
        have hc : c = '#' := by simpa using hh
        subst hc
        rfl
    · cases hsn : o.search with
      | nil => rw [hsn] at hs; exact Option.noConfusion hs
      | cons x xs =>
        rw [hsn] at hs
        have hx : x = '?' := by simpa using hs
        rw [hsn, List.cons_append] at hct
        injection hct with h1 _
        subst h1
        rw [hx]
        rfl
  have hheadH : ∀ c t, o.hash = c :: t → (c != '#') = false := by
    intro c t hct
    rcases hhshape with hh | hh
    · rw [hh] at hct; exact List.noConfusion hct
    · rw [hct] at hh
      have hc : c = '#' := by simpa using hh
      subst hc
      rfl
  obtain ⟨htake1, hdrop1⟩ := takeWhile_dropWhile_append notHostEnd o.host
    (o.pathname ++ (o.search ++ o.hash)) hhostc hheadPSH
  obtain ⟨htake2, hdrop2⟩ := takeWhile_dropWhile_append notQueryStart o.pathname
    (o.search ++ o.hash) hpc hheadSH
  obtain ⟨htake3, hdrop3⟩ := takeWhile_dropWhile_append (· != '#') o.search
    o.hash hsc hheadH
  have hhostE : o.host.isEmpty = false := by
    cases hh : o.host with
    | nil => exact absurd hh hhost
    | cons x xs => rfl
  have hpathE : o.pathname.isEmpty = false := by
    cases hh : o.pathname with
    | nil => exact absurd hh hpne
    | cons x xs => rfl
  simp only [parseAfterScheme, htake1, hdrop1, htake2, hdrop2, htake3, hdrop3,
    hhostE, hpathE]
  rfl

/-- Reparsing the `href` serialization of a well-formed URL recovers it
exactly. -/
theorem parseAbsList_href {o : UrlObj} (wf : UrlWf o) :
    parseAbsList o.href = some o := by
  have hre : ∀ pr : List Char, o.protocol = pr →
      o.href = (pr ++ [ '/', '/' ]) ++
        (o.host ++ (o.pathname ++ (o.search ++ o.hash))) := by
    intro pr hpr
    unfold UrlObj.href UrlObj.origin
    rw [hpr]
    simp [List.append_assoc]
  rcases hcase : wf.1 with hp | hp
  · unfold parseAbsList
    rw [hre _ hp]
    rw [show (("https:").data ++ [ '/', '/' ]) = ("https://").data from rfl]
    rw [if_pos (List.isPrefixOf_iff_prefix.mpr (List.prefix_append _ _))]
    rw [show (8 : Nat) = ("https://").data.length from rfl, List.drop_left]
    have hres := parseAfterScheme_href wf
    rw [hp] at hres
    exact hres
  · unfold parseAbsList
    rw [hre _ hp]
    rw [show (("http:").data ++ [ '/', '/' ]) = ("http://").data from rfl]
    have hnp : ("https://").data.isPrefixOf
        (("http://").data ++ (o.host ++ (o.pathname ++ (o.search ++ o.hash)))) =
        false := rfl
    rw [if_neg (by rw [hnp]; exact Bool.false_ne_true)]
    rw [if_pos (List.isPrefixOf_iff_prefix.mpr (List.prefix_append _ _))]
    rw [show (7 : Nat) = ("http://").data.length from rfl, List.drop_left]
    have hres := parseAfterScheme_href wf
    rw [hp] at hres
    exact hres

/-- `pathSlash` always yields a pathname ending in `/`. -/
theorem pathSlash_getLast (p : List Char) : (pathSlash p).getLast? = some '/' := by
  unfold pathSlash
  split
  · next h => exact h
  · rw [List.getLast?_append_of_ne_nil _ (List.cons_ne_nil '/' [])]
    rfl

/-- `pathSlash` preserves URL well-formedness. -/
theorem pathSlash_wf {o : UrlObj} (wf : UrlWf o) :
    UrlWf { o with pathname := pathSlash o.pathname } := by
  obtain ⟨hp, hhost, hhostc, hpne, hphead, hpc, hsc, hss, hhs⟩ := wf
  refine ⟨hp, hhost, hhostc, ?_, ?_, ?_, hsc, hss, hhs⟩
  · show pathSlash o.pathname ≠ []
    unfold pathSlash
    split
    · exact hpne
    · simp
  · show (pathSlash o.pathname).head? = some '/'
    unfold pathSlash
    split
    · exact hphead
    · rw [List.head?_append_of_ne_nil _ hpne]
      exact hphead
  · show ∀ c ∈ pathSlash o.pathname, notQueryStart c = true
    unfold pathSlash
    split
    · exact hpc
    · intro c hc
      rcases List.mem_append.mp hc with h | h
      · exact hpc c h
      · simp only [List.mem_singleton] at h
        subst h
        rfl

/-- On an input that does not already end in `/`, `ensureTrailingSlash`
rebuilds the URL from origin, slash-terminated pathname, search and
hash. -/
theorem ensure_notslash {pageUrl u : List Char} {o : UrlObj}
    (h : parseAbsList u = some o) (hpne : o.pathname ≠ [])
    (hEnd : ¬ u.getLast? = some '/') :
    ensureTrailingSlashList pageUrl u =
      .ok (o.origin ++ pathSlash o.pathname ++ o.search ++ o.hash) := by
  unfold ensureTrailingSlashList
  rw [if_neg hEnd]
  simp only [newUrlList, h]
  have hgl : (o.origin ++ o.pathname).getLast? = o.pathname.getLast? :=
    List.getLast?_append_of_ne_nil _ hpne
  rw [hgl]
  unfold pathSlash
  by_cases hps : o.pathname.getLast? = some '/'
  · rw [if_pos hps, if_pos hps]
  · rw [if_neg hps, if_neg hps]
    simp [List.append_assoc]

/-- C8 core, list level: on any parseable URL, one application of
`ensureTrailingSlash` succeeds, a second application returns its result
unchanged, and the result reparses with the same search and hash. -/
theorem ensureTrailingSlashList_spec {pageUrl u : List Char} {o : UrlObj}
    (h : parseAbsList u = some o) :
    ∃ v, ensureTrailingSlashList pageUrl u = .ok v ∧
      ensureTrailingSlashList pageUrl v = .ok v ∧
      ∃ o2, parseAbsList v = some o2 ∧ o2.search = o.search ∧ o2.hash = o.hash := by
  have wf := parseAbsList_wf h
  by_cases hEnd : u.getLast? = some '/'
  · refine ⟨u, ?_, ?_, o, h, rfl, rfl⟩ <;>
      · unfold ensureTrailingSlashList
        rw [if_pos hEnd]
  · have hpne : o.pathname ≠ [] := wf.2.2.2.1
    have h1 := @ensure_notslash pageUrl u o h hpne hEnd
    have hwf2 : UrlWf { o with pathname := pathSlash o.pathname } :=
      pathSlash_wf wf
    have hparse2 : parseAbsList
        (o.origin ++ pathSlash o.pathname ++ o.search ++ o.hash) =
        some { o with pathname := pathSlash o.pathname } :=
      parseAbsList_href hwf2
    refine ⟨o.origin ++ pathSlash o.pathname ++ o.search ++ o.hash, h1, ?_,
      { o with pathname := pathSlash o.pathname }, hparse2, rfl, rfl⟩
    by_cases hv : (o.origin ++ pathSlash o.pathname ++ o.search ++ o.hash).getLast? =
        some '/'
    · unfold ensureTrailingSlashList
      rw [if_pos hv]
    · have hpne2 : ({ o with pathname := pathSlash o.pathname } : UrlObj).pathname ≠ [] :=
        hwf2.2.2.2.1
      have h2 := @ensure_notslash pageUrl _ _ hparse2 hpne2 hv
      rw [h2]
      have hps : pathSlash (pathSlash o.pathname) = pathSlash o.pathname := by
        have hg := pathSlash_getLast o.pathname
        show (if (pathSlash o.pathname).getLast? = some '/' then pathSlash o.pathname
          else pathSlash o.pathname ++ ['/']) = pathSlash o.pathname
        rw [if_pos hg]
      exact congrArg
        (fun p => Except.ok (o.origin ++ p ++ o.search ++ o.hash)) hps

/-- C8: for every page URL and every parseable URL string `u`,
`ensureTrailingSlash` succeeds, is idempotent on its result, and the
canonicalized result keeps the query and fragment components of `u`. -/
theorem ensureTrailingSlash_idem (pageUrl u : String) (o : UrlObj)
    (h : parseAbsUrl u = some o) :
    ∃ v, ensureTrailingSlash pageUrl u = .ok v ∧
      ensureTrailingSlash pageUrl v = .ok v ∧
      ∃ o2, parseAbsUrl v = some o2 ∧ o2.search = o.search ∧ o2.hash = o.hash := by
  unfold parseAbsUrl at h
  obtain ⟨vl, h1, h2, o2, h3, h4, h5⟩ :=
    @ensureTrailingSlashList_spec pageUrl.data u.data o h
  refine ⟨String.mk vl, ?_, ?_, o2, h3, h4, h5⟩
  · unfold ensureTrailingSlash
    rw [h1]
    rfl
  · unfold ensureTrailingSlash
    rw [show (String.mk vl).data = vl from rfl, h2]
    rfl

/-- Witness for `ensureTrailingSlash_idem` at a URL with a query. -/
theorem ensureTrailingSlash_idem_witness :
    ∃ v, ensureTrailingSlash ("") ("https://ex.com/p?q=1") = .ok v ∧
      ensureTrailingSlash ("") v = .ok v ∧
      ∃ o2, parseAbsUrl v = some o2 ∧
        o2.search = ("?q=1").data ∧ o2.hash = [] :=
  ensureTrailingSlash_idem ("") ("https://ex.com/p?q=1")
    { protocol := ("https:").data, host := ("ex.com").data,
      pathname := ("/p").data, search := ("?q=1").data, hash := [] } rfl

/-! ## C4: FAQ deduplication and cap -/

/-- `toLowerCase` succeeds exactly when the question key is defined. -/
theorem qLowerE_ok_iff {f : FaqPair} {s : String} :
    qLowerE f = .ok s ↔ qKey f = some s := by
  unfold qLowerE qKey
  cases f.question <;> simp

/-- A successful `findIndex` call locates the first entry whose
case-insensitive question key matches the probe. -/
theorem findIdxM_some (k : FaqPair) :
    ∀ (l : List FaqPair) (j : Nat), findIdxM k l = .ok (some j) →
      ∃ pre f post, l = pre ++ f :: post ∧ pre.length = j ∧
        qKey f = qKey k ∧ qKey k ≠ none ∧ ∀ g ∈ pre, qKey g ≠ qKey k := by
  intro l
  induction l with
  | nil =>
    intro j h
    simp only [findIdxM] at h
    injection h with h
    exact Option.noConfusion h
  | cons f rest ih =>
    intro j h
    simp only [findIdxM] at h
    obtain ⟨kf, hkf, h⟩ := bind_ok_destruct h
    obtain ⟨kk, hkk, h⟩ := bind_ok_destruct h
    have hqf : qKey f = some kf := qLowerE_ok_iff.mp hkf
    have hqk : qKey k = some kk := qLowerE_ok_iff.mp hkk
    by_cases he : kf = kk
    · rw [if_pos he] at h
      have hj : j = 0 := by
        have h0 : (some 0 : Option Nat) = some j := Except.ok.inj h
        exact (Option.some.inj h0).symm
      subst hj
      refine ⟨[], f, rest, rfl, rfl, by rw [hqf, hqk, he], ?_, ?_⟩
      · rw [hqk]; exact Option.noConfusion
      · intro g hg; exact absurd hg (List.not_mem_nil g)
    · rw [if_neg he] at h
      obtain ⟨r, hr, h⟩ := bind_ok_destruct h
      have hrj : r.map (· + 1) = some j := Except.ok.inj h
      cases r with
      | none => simp at hrj
      | some j2 =>
        have hrj2 : j2 + 1 = j := by simpa using hrj
        obtain ⟨pre, f2, post, hl, hlen, hkey, hnn, hpre⟩ := ih j2 hr
        refine ⟨f :: pre, f2, post, by rw [hl, List.cons_append], ?_, hkey, hnn, ?_⟩
        · simp [hlen, hrj2]
        · intro g hg
          rcases List.mem_cons.mp hg with hgf | hgp
          · subst hgf
            rw [hqf, hqk]
            intro hcon
            exact he (Option.some.inj hcon)
          · exact hpre g hgp

/-- Two entries with the same key share the same first-match index. -/
theorem findIdxM_unique {self : List FaqPair} {a b : FaqPair} {i j : Nat}
    (ha : findIdxM a self = .ok (some i)) (hb : findIdxM b self = .ok (some j))
    (hk : qKey a = qKey b) : i = j := by
  obtain ⟨pre1, f1, post1, hl1, hlen1, hkey1, _, hpre1⟩ := findIdxM_some a self i ha
  obtain ⟨pre2, f2, post2, hl2, hlen2, hkey2, _, hpre2⟩ := findIdxM_some b self j hb
  subst hlen1
  subst hlen2
  rcases Nat.lt_trichotomy pre1.length pre2.length with hij | hij | hij
  · exfalso
    have hget1 : self[pre1.length]? = some f1 := by
      rw [hl1, List.getElem?_append_right (Nat.le_refl _), Nat.sub_self]
      simp
    rw [hl2, List.getElem?_append] at hget1
    rw [if_pos hij] at hget1
    have hmem : f1 ∈ pre2 := List.getElem?_mem hget1
    exact hpre2 f1 hmem (by rw [hkey1, hk])
  · exact hij
  · exfalso
    have hget2 : self[pre2.length]? = some f2 := by
      rw [hl2, List.getElem?_append_right (Nat.le_refl _), Nat.sub_self]
      simp
    rw [hl1, List.getElem?_append] at hget2
    rw [if_pos hij] at hget2
    have hmem : f2 ∈ pre1 := List.getElem?_mem hget2
    exact hpre1 f2 hmem (by rw [hkey2, ← hk])

/-- The dedup filter keeps exactly first occurrences: every output entry
carries its enum index and first-match evidence, and (for enum inputs
with distinct indices) the output keys are pairwise distinct. -/
theorem uniqueAux_ok (self : List FaqPair) :
    ∀ (L : List (Nat × FaqPair)) (out : List FaqPair),
      uniqueAux self L = .ok out →
      (∀ g ∈ out, ∃ i, (i, g) ∈ L ∧ findIdxM g self = .ok (some i)) ∧
      ((L.map Prod.fst).Pairwise (· ≠ ·) →
        out.Pairwise (fun a b => qKey a ≠ qKey b)) := by
  intro L
  induction L with
  | nil =>
    intro out h
    simp only [uniqueAux] at h
    have hout : out = [] := (Except.ok.inj h).symm
    subst hout
    exact ⟨fun g hg => absurd hg (List.not_mem_nil g), fun _ => List.Pairwise.nil⟩
  | cons p rest ih =>
    obtain ⟨i, f⟩ := p
    intro out h
    simp only [uniqueAux] at h
    obtain ⟨jj, hjj, h⟩ := bind_ok_destruct h
    obtain ⟨tail, htail, h⟩ := bind_ok_destruct h
    have hout : out = if jj = some i then f :: tail else tail :=
      (Except.ok.inj h).symm
    obtain ⟨ihmem, ihpw⟩ := ih tail htail
    by_cases hji : jj = some i
    · rw [if_pos hji] at hout
      subst hout
      have hfind : findIdxM f self = .ok (some i) := by rw [← hji]; exact hjj
      constructor
      · intro g hg
        rcases List.mem_cons.mp hg with hgf | hgt
        · subst hgf
          exact ⟨i, List.mem_cons_self _ _, hfind⟩
        · obtain ⟨i2, hmem, hfind2⟩ := ihmem g hgt
          exact ⟨i2, List.mem_cons_of_mem _ hmem, hfind2⟩
      · intro hpw
        rw [List.map_cons] at hpw
        obtain ⟨hhead, htailpw⟩ := List.pairwise_cons.mp hpw
        refine List.Pairwise.cons ?_ (ihpw htailpw)
        intro b hb hcon
        obtain ⟨ib, hbmem, hbfind⟩ := ihmem b hb
        have hieq : i = ib := findIdxM_unique hfind hbfind hcon
        exact hhead ib (List.mem_map_of_mem Prod.fst hbmem) hieq
    · rw [if_neg hji] at hout
      subst hout
      constructor
      · intro g hg
        obtain ⟨i2, hmem, hfind2⟩ := ihmem g hg
        exact ⟨i2, List.mem_cons_of_mem _ hmem, hfind2⟩
      · intro hpw
        rw [List.map_cons] at hpw
        exact ihpw (List.pairwise_cons.mp hpw).2

/-- C4: the FAQ list returned by `extractFaqs` never exceeds 20 entries,
no two of its entries have case-insensitively equal questions, and each
entry is the first entry with its question key in the cascade output
(later duplicates are dropped). -/
theorem extractFaqs_dedup (d : Doc) :
    (extractFaqs d).length ≤ 20 ∧
    (extractFaqs d).Pairwise (fun a b => qKey a ≠ qKey b) ∧
    ∀ p ∈ extractFaqs d, ∃ pre post, cascadeFaqs d = pre ++ p :: post ∧
      ∀ g ∈ pre, qKey g ≠ qKey p := by
  unfold extractFaqs
  cases hb : extractFaqsBody d with
  | error e => simp
  | ok l =>
    simp only [extractFaqsBody, uniqueFaqs] at hb
    obtain ⟨uniq, huniq, hb⟩ := bind_ok_destruct hb
    have hl : l = uniq.take 20 := (Except.ok.inj hb).symm
    subst hl
    obtain ⟨hmem, hpw⟩ := uniqueAux_ok (cascadeFaqs d) (cascadeFaqs d).enum uniq huniq
    have henum : ((cascadeFaqs d).enum.map Prod.fst).Pairwise (· ≠ ·) := by
      rw [List.enum_map_fst]
      exact (List.pairwise_lt_range _).imp Nat.ne_of_lt
    refine ⟨?_, ?_, ?_⟩
    · rw [List.length_take]
      exact min_le_left _ _
    · exact List.Pairwise.sublist (List.take_sublist _ _) (hpw henum)
    · intro p hp
      have hpu : p ∈ uniq := List.mem_of_mem_take hp
      obtain ⟨i, hienum, hfind⟩ := hmem p hpu
      have hget : (cascadeFaqs d)[i]? = some p := List.mem_enum_iff_getElem?.mp hienum
      obtain ⟨pre, f, post, hl2, hlen, hkey, hnn, hpre⟩ :=
        findIdxM_some p (cascadeFaqs d) i hfind
      have hfp : f = p := by
        subst hlen
        rw [hl2, List.getElem?_append_right (Nat.le_refl _), Nat.sub_self] at hget
        simpa using hget
      subst hfp
      exact ⟨pre, post, hl2, hpre⟩

/-- Witness for `extractFaqs_dedup` at a one-pair document. -/
theorem extractFaqs_dedup_witness :
    (extractFaqs microDoc2).length ≤ 20 ∧
    ∃ pre post, cascadeFaqs microDoc2 =
        pre ++ ({ question := .str ("Q2"), answer := .str ("A2") } : FaqPair) :: post ∧
      ∀ g ∈ pre, qKey g ≠
        qKey ({ question := .str ("Q2"), answer := .str ("A2") } : FaqPair) :=
  ⟨(extractFaqs_dedup microDoc2).1,
   (extractFaqs_dedup microDoc2).2.2 _ (by
     rw [show extractFaqs microDoc2 =
       [{ question := .str ("Q2"), answer := .str ("A2") }] from rfl]
     exact List.mem_singleton_self _)⟩
